import Mathlib

/-!
Shallow embedding of the PDF tools engine (`PDFTools` in the repository's
tools script): the `merge`, `split` and `compress` operations and the range
helper `_parseRangePart`, together with the slice of pdf-lib document state
they manipulate (pages, stamps drawn by `drawText`, link annotations, catalog
entries touched by `compress`).

Modelling conventions:
* Page coordinates and sizes are rationals (`ℚ`); JavaScript numbers on the
  inputs the engine meets are exact decimals, and no claim depends on
  floating-point rounding.
* `drawText` appends a `Stamp` record to the page; a page's abstract content
  stream identity is `PageContent`.
* Indirect-object identity is a natural-number `ref` allocated from a
  per-document counter, mirroring `context.register` / `copyPages` /
  `insertPage` allocating refs in the destination context.  Auxiliary objects
  (fonts, content streams) also consume refs in pdf-lib; they are irrelevant
  to every claim, so only pages and annotations draw from the counter here.
* JavaScript `NaN` is `Option.none`: every comparison against `NaN` is false,
  which is exactly the behaviour of the `none` short-circuits below.
-/

namespace PDFTools

/-- A piece of text drawn onto a page by `drawText`: the string, the `x`/`y`
position, the font size, whether the bold font was used, and the rgb colour. -/
structure Stamp where
  text : String
  x : ℚ
  y : ℚ
  size : ℚ
  bold : Bool
  r : ℚ
  g : ℚ
  b : ℚ
deriving DecidableEq, Repr

/-- Abstract identity of a page's content stream: either the content copied
from a loaded source page, or the empty content of a freshly created blank
page (`insertPage` / the default page added by `save`). -/
inductive PageContent where
  | fromSrc (id : ℕ)
  | blank
deriving DecidableEq, Repr

/-- A page-attached annotation.  Link annotations carry their rectangle and
the `ref` of the destination page (the `Dest` array's first entry); any other
annotation kind is abstract. -/
inductive Annot where
  | link (rect : List ℚ) (dest : ℕ)
  | other (id : ℕ)
deriving DecidableEq, Repr

/-- A page: its indirect-object `ref`, content identity, media-box size, the
stamps drawn onto it, and its `Annots` entry (`none` when the page dictionary
has no `Annots` key). -/
structure Page where
  ref : ℕ
  content : PageContent
  width : ℚ
  height : ℚ
  stamps : List Stamp
  annots : Option (List Annot)
deriving DecidableEq, Repr

/-- Model of `drawText` on a page: appends the stamp to the page's content. -/
def addStamp (p : Page) (s : Stamp) : Page :=
  { p with stamps := p.stamps ++ [s] }

/-- Placeholder page used only as the default of `Option.getD` at positions
that are proved in bounds. -/
def defaultPage : Page :=
  ⟨0, .blank, 0, 0, [], none⟩

/-- A blank page as created by `insertPage(0)` or by `save`'s default page:
pdf-lib's `PDFPageLeaf.withContextAndParent` gives it MediaBox
`[0, 0, 612, 792]`, no content and no `Annots` key. -/
def blankPage (ref : ℕ) : Page :=
  ⟨ref, .blank, 612, 792, [], none⟩

/-- Document information-dictionary fields, in the order `compress` touches
them.  Timestamps are epoch milliseconds (`new Date(0)` is `0`). -/
structure Meta where
  title : String
  author : String
  subject : String
  keywords : List String
  producer : String
  creator : String
  creationDate : ℤ
  modificationDate : ℤ
deriving DecidableEq, Repr

/-- The catalog's `Names` dictionary: its `EmbeddedFiles` entry, plus an
abstract count standing for any other name trees it holds (deleting
`EmbeddedFiles` keeps the dictionary itself). -/
structure NamesDict where
  embeddedFiles : Option ℕ
  otherEntries : ℕ
deriving DecidableEq, Repr

/-- The interactive form (AcroForm): its field list.  A field is `true` when
it is corrupt, i.e. flattening it raises. -/
structure FormState where
  fields : List Bool
deriving DecidableEq, Repr

/-- The slice of a pdf-lib `PDFDocument` the engine reads and writes: the page
tree in order, the ref allocator, the information dictionary, and the catalog
entries `Outlines`, `Names`, `AF` and the form. -/
structure Doc where
  pages : List Page
  nextRef : ℕ
  meta : Meta
  outlines : Option ℕ
  names : Option NamesDict
  af : Option ℕ
  form : Option FormState
deriving DecidableEq, Repr

/-- Model of `PDFDocument.create()`: an empty document. -/
def emptyDoc : Doc :=
  ⟨[], 0, ⟨"", "", "", [], "", "", 0, 0⟩, none, none, none, none⟩

/-- pdf-lib `PDFDocument.save`: with `addDefaultPage` (the library default,
`true`) a document with zero pages gets one blank default page before
serialization; `compress` passes `addDefaultPage: false` explicitly ("Don't
add empty pages"), `merge` and `split` call `save()` with the defaults.
Serialization itself (bytes) is outside the model: the saved document is the
observable. -/
def saveStep (d : Doc) (addDefaultPage : Bool) : Doc :=
  if addDefaultPage ∧ d.pages = [] then
    { d with pages := [blankPage d.nextRef], nextRef := d.nextRef + 1 }
  else d

/-! ## The range helper `_parseRangePart` (and JavaScript number coercion) -/

/-- Model of `String.prototype.split(sep)` for a one-character separator, on the
character list: always at least one group, empty groups kept. -/
def splitChar (sep : Char) : List Char → List (List Char)
  | [] => [[]]
  | c :: rest =>
    if c = sep then [] :: splitChar sep rest
    else
      match splitChar sep rest with
      | g :: gs => (c :: g) :: gs
      | [] => [[c]]

/-- The whitespace trimmed by `String.prototype.trim`, at the ASCII whitespace
the range grammar can contain. -/
def isWS (c : Char) : Bool := c.isWhitespace

/-- Model of `String.prototype.trim` on the character list. -/
def trimChars (cs : List Char) : List Char :=
  ((cs.dropWhile isWS).reverse.dropWhile isWS).reverse

/-- JavaScript `String.prototype.trim`. -/
def jsTrim (s : String) : String := String.mk (trimChars s.toList)

/-- Digit-string value, `Number`'s decimal accumulation. -/
def digitsToNat (cs : List Char) : ℕ :=
  cs.foldl (fun a c => 10 * a + (c.toNat - 48)) 0

/-- Whether `cs` consists of decimal digits only. -/
def isDigits (cs : List Char) : Bool :=
  cs.all Char.isDigit

/-- Unsigned decimal literal: `digits`, `digits.digits`, `digits.` or
`.digits`; anything else is `none` (JavaScript `NaN`). -/
def unsignedDec (t : List Char) : Option ℚ :=
  match splitChar '.' t with
  | [a] =>
    if a.length > 0 && isDigits a then some (digitsToNat a) else none
  | [a, b] =>
    if (a.length > 0 || b.length > 0) && isDigits a && isDigits b then
      some ((digitsToNat a : ℚ) + (digitsToNat b : ℚ) / (10 : ℚ) ^ b.length)
    else none
  | _ => none

/-- JavaScript `Number(string)` on the strings the range grammar meets:
whitespace is trimmed, the empty string is `0`, an optional sign precedes a
finite decimal literal, and anything else is `none`, standing for `NaN` (every
comparison on which is false, matching the `none` short-circuits in
`parseRangePart`).  Non-finite (`Infinity`) and non-decimal (hex, exponent)
literals are outside the model and also map to `none`. -/
def jsNumber (s : List Char) : Option ℚ :=
  match trimChars s with
  | [] => some 0
  | '-' :: t => (unsignedDec t).map (fun q => -q)
  | '+' :: t => unsignedDec t
  | t => unsignedDec t

/-- The values taken by `for (let i = start; i <= stop; i++)`:
`start, start + 1, …` while `i ≤ stop`. -/
def iterList (start stop : ℚ) : List ℚ :=
  if start ≤ stop then
    (List.range (⌊stop - start⌋.toNat + 1)).map (fun (k : ℕ) => start + (k : ℚ))
  else []

/-- Model of `PDFTools._parseRangePart(part, totalPages)`: a single comma-free part,
either a `start-end` span or a single page number; 1-based numbers inside
`[1, totalPages]` are kept (as 0-based indices), everything else is silently
dropped. -/
def parseRangePart (part : String) (totalPages : ℕ) : List ℚ :=
  if part.toList.contains '-' then
    match splitChar '-' part.toList with
    | a :: b :: _ =>
      match jsNumber a, jsNumber b with
      | some start, some stop =>
        ((iterList start stop).filter
          (fun i => decide (1 ≤ i ∧ i ≤ (totalPages : ℚ)))).map (fun i => i - 1)
      | _, _ => []
    | _ => []
  else
    match jsNumber part.toList with
    | some p => if 1 ≤ p ∧ p ≤ (totalPages : ℚ) then [p - 1] else []
    | none => []

/-! ## The split operation -/

/-- Model of `range.split(',').map(p => p.trim()).filter(p => p)`: the comma-separated
parts of the range expression, trimmed, empty parts dropped. -/
def rangeParts (range : String) : List String :=
  ((splitChar ',' range.toList).map (fun cs => String.mk (trimChars cs))).filter
    (fun s => s ≠ "")

/-- Page lookup at a JavaScript numeric index, as `getPages()[i]` inside
`copyPages`: defined exactly when the index is an integer inside the array
bounds; anywhere else the lookup yields `undefined` and the subsequent member
access throws, modelled by `none`. -/
def jsLookup (ps : List Page) (q : ℚ) : Option Page :=
  if h : q.den = 1 ∧ 0 ≤ q.num ∧ q.num.toNat < ps.length then
    some (ps.get ⟨q.num.toNat, h.2.2⟩)
  else none

/-- Model of `destDoc.copyPages(srcDoc, indices)`: each index is looked up in the
source's page list and the page is deep-copied into the destination, drawing a
fresh `ref` for each copy starting at `base`.  The copy keeps the page's
content, size, stamps and annotations. -/
def copyPagesQ (base : ℕ) (src : Doc) (indices : List ℚ) : Option (List Page) :=
  (indices.mapM (jsLookup src.pages)).map
    (fun ps => ps.enum.map (fun ip => { ip.2 with ref := base + ip.1 }))

/-- The empty-range branch of `split`: `for (let i = 0; i < pageCount; i++)`
build a fresh document holding the single copied page `i` and save it. -/
def splitAllPages (src : Doc) : List ℕ → Option (List Doc)
  | [] => some []
  | i :: rest =>
    match copyPagesQ 0 src [(i : ℚ)] with
    | none => none
    | some cps =>
      (splitAllPages src rest).map
        (fun ds => saveStep { emptyDoc with pages := cps, nextRef := cps.length } true :: ds)

/-- The per-part loop of `split`: resolve each part with `_parseRangePart`; a
part with a non-empty index list yields one fresh saved document holding
exactly those pages in order, an empty part is skipped. -/
def splitPartsLoop (src : Doc) (pageCount : ℕ) : List String → Option (List Doc)
  | [] => some []
  | part :: rest =>
    let indices := parseRangePart part pageCount
    if indices.length > 0 then
      match copyPagesQ 0 src indices with
      | none => none
      | some cps =>
        (splitPartsLoop src pageCount rest).map
          (fun ds => saveStep { emptyDoc with pages := cps, nextRef := cps.length } true :: ds)
    else splitPartsLoop src pageCount rest

/-- Model of `PDFTools.split(file, range)` on the loaded source document.  An empty or
all-whitespace range expression (`!range || range.trim() === ''`) produces one
single-page document per source page; otherwise each comma-separated part
yields its own document. -/
def split (src : Doc) (range : String) : Option (List Doc) :=
  let pageCount := src.pages.length
  if jsTrim range = "" then
    splitAllPages src (List.range pageCount)
  else
    splitPartsLoop src pageCount (rangeParts range)

/-- The groups of page indices `split` resolves from a range expression: one
group per comma-separated part, resolved independently by `_parseRangePart`,
parts resolving to an empty list skipped (the index-level projection of
`splitPartsLoop`). -/
def splitGroups (range : String) (pageCount : ℕ) : List (List ℚ) :=
  ((rangeParts range).map (fun part => parseRangePart part pageCount)).filter
    (fun l => !l.isEmpty)

/-! ## The compress operation -/

/-- The option set recognized by `compress`. -/
structure CompressOptions where
  stripMetadata : Bool := false
  removeAnnotations : Bool := false
  flatten : Bool := false
  removeBookmarks : Bool := false
  removeAttachments : Bool := false
deriving DecidableEq, Repr

/-- The information dictionary after `stripMetadata`: every text field
cleared, both timestamps reset to `new Date(0)` — the fixed Unix epoch, a
constant that does not depend on the time of processing. -/
def strippedMeta : Meta :=
  ⟨"", "", "", [], "", "", 0, 0⟩

/-- The `removeAnnotations` per-page action: delete the page's `Annots` entry
when present. -/
def removeAnnotsPage (p : Page) : Page :=
  if p.annots.isSome then { p with annots := none } else p

/-- Modelled from the spec: `PDFForm.flatten`'s walk over the form fields
(pdf-lib internals, not part of this repository).  Per the spec, flattening is
best-effort: each well-formed field is converted and removed; a corrupt field
definition makes the walk raise there, with the mutations already made kept.
Returns (raised?, fields remaining). -/
def flattenFields : List Bool → Bool × List Bool
  | [] => (false, [])
  | b :: rest => if b then (true, b :: rest) else flattenFields rest

/-- Modelled from the spec: whether the `try` block around
`getForm()/form.flatten()` raises — with no form, or upon a corrupt field
definition ("no forms or error" in the source's catch). -/
def flattenRaises (d : Doc) : Bool :=
  match d.form with
  | none => true
  | some f => (flattenFields f.fields).1

/-- The flatten block of `compress` with its `catch`: a raise is swallowed,
mutations made before the raise persist, and processing continues. -/
def flattenCaught (d : Doc) : Doc :=
  match d.form with
  | none => d
  | some f => { d with form := some ⟨(flattenFields f.fields).2⟩ }

/-- The `removeBookmarks` block: delete the catalog's `Outlines` entry when
present (the surrounding `try` cannot raise on this model's catalog). -/
def removeOutlinesStep (d : Doc) : Doc :=
  if d.outlines.isSome then { d with outlines := none } else d

/-- The `removeAttachments` block: delete `EmbeddedFiles` from the catalog's
`Names` dictionary when both exist (the dictionary itself stays), then delete
the catalog's `AF` array when present; each deletion independently guarded. -/
def removeAttachmentsStep (d : Doc) : Doc :=
  let d' :=
    match d.names with
    | some nd =>
      if nd.embeddedFiles.isSome then { d with names := some { nd with embeddedFiles := none } }
      else d
    | none => d
  if d'.af.isSome then { d' with af := none } else d'

/-- Model of `PDFTools.compress(file, options)` on the loaded document: the five
independently-toggled blocks in source order, then `save` with
`addDefaultPage: false`. -/
def compress (options : CompressOptions) (d : Doc) : Doc :=
  let d1 := if options.stripMetadata then { d with meta := strippedMeta } else d
  let d2 :=
    if options.removeAnnotations then { d1 with pages := d1.pages.map removeAnnotsPage }
    else d1
  let d3 := if options.flatten then flattenCaught d2 else d2
  let d4 := if options.removeBookmarks then removeOutlinesStep d3 else d3
  let d5 := if options.removeAttachments then removeAttachmentsStep d4 else d4
  saveStep d5 false

/-! ## The merge operation -/

/-- The option set recognized by `merge`. -/
structure MergeOptions where
  toc : Bool := false
  filename : Bool := false
  origPages : Bool := false
  finalPages : Bool := false
deriving DecidableEq, Repr

/-- A source supplied to `merge`: the underlying file's `name`, the
`displayName` the surrounding application attaches to it (initialized to the
file name, changed by the rename UI), and the pages of the loaded document. -/
structure SrcFile where
  name : String
  displayName : String
  pages : List Page
deriving DecidableEq, Repr

/-- Modelled abstraction of `font.widthOfTextAtSize` for the embedded
Helvetica: the true glyph metrics live in the font file outside this
repository; no verified claim inspects the link rectangle's width, only that
the rectangle is built from this value. -/
def widthOfTextAtSize (text : String) (size : ℚ) : ℚ :=
  size * text.length / 2

/-- The gray `rgb(0.5, 0.5, 0.5)` footer stamp colour. -/
def mkFooterStamp (text : String) (x y : ℚ) : Stamp :=
  ⟨text, x, y, 9, false, 1/2, 1/2, 1/2⟩

/-- An ephemeral TOC record pushed per source: the source's title
(`file.name`) and the destination page index its first page will occupy once
the TOC page is inserted at the front. -/
structure TocEntry where
  title : String
  pageIndex : ℕ
deriving DecidableEq, Repr

/-- The copies made by `copyPages(pdf, pdf.getPageIndices())`: every source
page in order, each copy drawing a fresh ref from the destination counter. -/
def copyPagesFrom (base : ℕ) (ps : List Page) : List Page :=
  ps.enum.map (fun ip => { ip.2 with ref := base + ip.1 })

/-- The per-page stamps of the copy loop (`copiedPages.forEach((page, i))`):
the source-filename stamp (left-bottom), then the original page-number stamp
(centered), each toggled by its option. -/
def stampCopiedPage (options : MergeOptions) (name : String) (srcCount : ℕ)
    (ip : ℕ × Page) : Page :=
  let i := ip.1
  let page := ip.2
  let page :=
    if options.filename then addStamp page (mkFooterStamp ("Source: " ++ name) 50 20)
    else page
  let page :=
    if options.origPages then
      let n := i + 1
      addStamp page (mkFooterStamp ("original - " ++ toString n ++ "/" ++ toString srcCount) (page.width / 2 - 40) 20)
    else page
  page

/-- One iteration of `merge`'s source loop: copy this file's pages, record its
TOC entry (`totalPagesProcessed + 1` when a TOC page will be inserted at index
0), stamp each copy, and append the copies to the destination. -/
def appendFile (options : MergeOptions) (f : SrcFile)
    (st : Doc × ℕ × List TocEntry) : Doc × ℕ × List TocEntry :=
  let d := st.1
  let total := st.2.1
  let entries := st.2.2
  let sourcePageCount := f.pages.length
  let copied := copyPagesFrom d.nextRef f.pages
  let startPageIndex := if options.toc then total + 1 else total
  let entries := entries ++ [⟨f.name, startPageIndex⟩]
  let stamped := copied.enum.map (stampCopiedPage options f.name sourcePageCount)
  ({ d with pages := d.pages ++ stamped, nextRef := d.nextRef + copied.length },
    total + copied.length, entries)

/-- The source loop of `merge` over all files. -/
def appendSources (options : MergeOptions) :
    List SrcFile → Doc × ℕ × List TocEntry → Doc × ℕ × List TocEntry
  | [], st => st
  | f :: fs, st => appendSources options fs (appendFile options f st)

/-- The final page-number pass: iterate the pages the destination has at this
point and stamp `"Page i+1 of totalPagesProcessed"` right-aligned in the
footer. -/
def finalStampStep (options : MergeOptions) (total : ℕ) (d : Doc) : Doc :=
  if options.finalPages then
    { d with
      pages := d.pages.enum.map
        (fun ip => addStamp ip.2 (mkFooterStamp ("Page " ++ toString (ip.1 + 1) ++ " of " ++ toString total) (ip.2.width - 100) 20)) }
  else d

/-- The title stamp drawn on the TOC page. -/
def tocTitleStamp (height : ℚ) : Stamp :=
  ⟨"Table of Contents", 50, height - 100, 24, true, 0, 0, 0⟩

/-- The text line drawn for a TOC entry at loop index `idx`. -/
def tocEntryStamp (height : ℚ) (idx : ℕ) (e : TocEntry) : Stamp :=
  let t := e.title
  let n := e.pageIndex + 1
  ⟨t ++ " (Page " ++ toString n ++ ")", 70, height - 150 - idx * 25, 14, false, 0, 0, 1⟩

/-- Model of the `tocPage.node.get('Annots')` push-or-set: append the registered link to
the page's `Annots`, creating the array when absent. -/
def pushAnnot (p : Page) (a : Annot) : Page :=
  { p with
    annots :=
      match p.annots with
      | some l => some (l ++ [a])
      | none => some [a] }

/-- The `tocEntries.forEach((entry, idx))` loop: draw the entry text on the
TOC page, then build the link annotation whose `Rect` covers the text and
whose `Dest` is `getPages()[entry.pageIndex].ref` — looked up in the current
page list `tocPage :: tail`; an out-of-bounds index makes the member access
on `undefined` throw (`none`).  Registering the annotation draws a ref. -/
def tocLoop (tail : List Page) (height : ℚ) :
    List TocEntry → ℕ → Page → ℕ → Option (Page × ℕ)
  | [], _, tocPage, nextRef => some (tocPage, nextRef)
  | e :: rest, idx, tocPage, nextRef =>
    let yPos := height - 150 - (idx : ℚ) * 25
    let stamp := tocEntryStamp height idx e
    let tocPage := addStamp tocPage stamp
    let textWidth := widthOfTextAtSize stamp.text 14
    match (tocPage :: tail).get? e.pageIndex with
    | none => none
    | some target =>
      let ann := Annot.link [70, yPos - 2, 70 + textWidth, (yPos - 2) + 16] target.ref
      let tocPage := pushAnnot tocPage ann
      tocLoop tail height rest (idx + 1) tocPage (nextRef + 1)

/-- The TOC block of `merge`: insert a fresh blank page at index 0, draw the
title, then run the entries loop. -/
def tocStep (options : MergeOptions) (entries : List TocEntry) (d : Doc) : Option Doc :=
  if options.toc then
    let tocPage := blankPage d.nextRef
    let height := tocPage.height
    let tocPage := addStamp tocPage (tocTitleStamp height)
    match tocLoop d.pages height entries 0 tocPage (d.nextRef + 1) with
    | none => none
    | some tp => some { d with pages := tp.1 :: d.pages, nextRef := tp.2 }
  else some d

/-- Model of `PDFTools.merge(files, options)`: append every source in order with the
per-page stamps, then the final page-number pass, then the TOC insertion, then
`save()` (library defaults, in particular `addDefaultPage: true`). -/
def merge (files : List SrcFile) (options : MergeOptions) : Option Doc :=
  let st := appendSources options files (emptyDoc, 0, [])
  let d := finalStampStep options st.2.1 st.1
  (tocStep options st.2.2 d).map (fun d' => saveStep d' true)

/-! ## Specification-side functions and concrete instances used by the verification -/

/-- The form value `flattenCaught` leaves behind. -/
def flattenForm : Option FormState → Option FormState
  | none => none
  | some f => some ⟨(flattenFields f.fields).2⟩

/-- The `Names` dictionary value `removeAttachmentsStep` leaves behind. -/
def clearEmbedded : Option NamesDict → Option NamesDict
  | none => none
  | some nd => some { nd with embeddedFiles := none }

/-- Total page count over a list of sources. -/
def totalLen (files : List SrcFile) : ℕ :=
  (files.map (fun f => f.pages.length)).sum

/-- Pages contributed by the first `k` sources. -/
def prefixLen : List SrcFile → ℕ → ℕ
  | _, 0 => 0
  | [], _ + 1 => 0
  | f :: fs, k + 1 => f.pages.length + prefixLen fs k

/-- The stamped copies one source contributes, its first copy getting ref
`base`. -/
def copyBlock (options : MergeOptions) (f : SrcFile) (base : ℕ) : List Page :=
  (copyPagesFrom base f.pages).enum.map (stampCopiedPage options f.name f.pages.length)

/-- The concatenated stamped copies of all sources. -/
def blocks (options : MergeOptions) : List SrcFile → ℕ → List Page
  | [], _ => []
  | f :: fs, base => copyBlock options f base ++ blocks options fs (base + f.pages.length)

/-- The TOC entries the source loop records, starting from processed count
`t`. -/
def entriesFor (options : MergeOptions) : List SrcFile → ℕ → List TocEntry
  | [], _ => []
  | f :: fs, t =>
    ⟨f.name, if options.toc then t + 1 else t⟩ :: entriesFor options fs (t + f.pages.length)

/-- The link-annotation rectangle built for entry `e` at loop index `idx`. -/
def tocLinkRect (height : ℚ) (idx : ℕ) (e : TocEntry) : List ℚ :=
  let yPos := height - 150 - (idx : ℚ) * 25
  let textWidth := widthOfTextAtSize (tocEntryStamp height idx e).text 14
  [70, yPos - 2, 70 + textWidth, (yPos - 2) + 16]

/-- The link annotations the TOC loop adds: one per entry, in order, each
pointing at the page at `pageIndex` of the post-insertion page list
`tocPage :: tail`, i.e. at `tail[pageIndex - 1]`. -/
def tocAnnots (tail : List Page) (height : ℚ) : List TocEntry → ℕ → List Annot
  | [], _ => []
  | e :: rest, idx =>
    Annot.link (tocLinkRect height idx e)
        (((tail.get? (e.pageIndex - 1)).getD defaultPage).ref) ::
      tocAnnots tail height rest (idx + 1)

/-- A loaded source page: US-Letter sized, no stamps, no annotations. -/
def pageOf (r c : ℕ) : Page := ⟨r, .fromSrc c, 612, 792, [], none⟩

/-- A 3-page source, "A.pdf". -/
def fileA : SrcFile := ⟨"A.pdf", "A.pdf", [pageOf 0 0, pageOf 1 1, pageOf 2 2]⟩

/-- A 2-page source, "B.pdf". -/
def fileB : SrcFile := ⟨"B.pdf", "B.pdf", [pageOf 0 10, pageOf 1 11]⟩

/-- A 1-page source whose display name was changed by the rename UI and so
differs from the underlying file's name. -/
def fileRenamed : SrcFile := ⟨"a.pdf", "renamed.pdf", [pageOf 0 7]⟩

/-- The destination `ref` of a link annotation. -/
def linkDest : Annot → Option ℕ
  | .link _ d => some d
  | .other _ => none

/-- A concrete 2-page source document. -/
def srcDoc2 : Doc := { emptyDoc with pages := [pageOf 3 20, pageOf 7 21], nextRef := 2 }

/-! ## Range resolver: verification -/

lemma iterList_pairwise (start stop : ℚ) : (iterList start stop).Pairwise (· < ·) := by
  unfold iterList
  split
  · exact (List.pairwise_lt_range _).map _ (fun a b h => by
      have hab : (a : ℚ) < (b : ℚ) := by exact_mod_cast h
      linarith)
  · exact List.Pairwise.nil

lemma clip_mem_bounds (n : ℕ) (l : List ℚ) :
    ∀ q ∈ (l.filter (fun i => decide (1 ≤ i ∧ i ≤ (n : ℚ)))).map (fun i => i - 1),
      0 ≤ q ∧ q ≤ (n : ℚ) - 1 := by
  intro q hq
  obtain ⟨i, hi, rfl⟩ := List.mem_map.mp hq
  have h : 1 ≤ i ∧ i ≤ (n : ℚ) := by simpa using (List.mem_filter.mp hi).2
  exact ⟨by linarith [h.1], by linarith [h.2]⟩

lemma clip_pairwise (n : ℕ) (l : List ℚ) (h : l.Pairwise (· < ·)) :
    ((l.filter (fun i => decide (1 ≤ i ∧ i ≤ (n : ℚ)))).map (fun i => i - 1)).Pairwise
      (· < ·) :=
  (h.filter _).map _ (fun _ _ hab => by linarith)

/-- C10: every index `_parseRangePart` returns lies in `[0, totalPages - 1]`,
and the returned list is strictly increasing — so a single part never asks
`copyPages` for an out-of-range or duplicated page index. -/
theorem parseRangePart_safe (part : String) (totalPages : ℕ) :
    (∀ q ∈ parseRangePart part totalPages, 0 ≤ q ∧ q ≤ (totalPages : ℚ) - 1) ∧
      (parseRangePart part totalPages).Pairwise (· < ·) := by
  unfold parseRangePart
  cases hc : part.toList.contains '-' with
  | true =>
    simp only [hc, if_true]
    rcases hsp : splitChar '-' part.toList with _ | ⟨a, _ | ⟨b, rest⟩⟩ <;>
      simp only [hsp]
    · simp
    · simp
    · cases hja : jsNumber a <;> cases hjb : jsNumber b <;> simp only [hja, hjb]
      · simp
      · simp
      · simp
      · exact ⟨clip_mem_bounds _ _, clip_pairwise _ _ (iterList_pairwise _ _)⟩
  | false =>
    simp only [hc, Bool.false_eq_true, if_false]
    cases hjn : jsNumber part.toList with
    | none => simp
    | some p =>
      simp only []
      by_cases hb : 1 ≤ p ∧ p ≤ (totalPages : ℚ)
      · rw [if_pos hb]
        refine ⟨?_, List.pairwise_singleton _ _⟩
        intro q hq
        rcases List.mem_singleton.mp hq with rfl
        exact ⟨by linarith [hb.1], by linarith [hb.2]⟩
      · rw [if_neg hb]
        simp

/-- C3: each comma-separated part is resolved independently into its own
group, out-of-bounds page numbers silently dropped: `"1-3,5"` against 10
pages gives the groups `[0,1,2]` and `[4]`; `"0,11"` against 10 pages gives
no groups at all. -/
theorem splitGroups_examples :
    splitGroups "1-3,5" 10 = [[0, 1, 2], [4]] ∧ splitGroups "0,11" 10 = [] :=
  ⟨by with_unfolding_all rfl, by with_unfolding_all rfl⟩

/-! ## Compress: verification -/

lemma saveStep_false (d : Doc) : saveStep d false = d := by
  simp [saveStep]

lemma saveStep_of_ne_nil (d : Doc) (b : Bool) (h : d.pages ≠ []) : saveStep d b = d := by
  simp [saveStep, h]

lemma flattenCaught_eq (d : Doc) : flattenCaught d = { d with form := flattenForm d.form } := by
  cases d with
  | mk pages nextRef meta outlines names af form =>
    cases form <;> simp [flattenCaught, flattenForm]

lemma removeOutlinesStep_eq (d : Doc) :
    removeOutlinesStep d = { d with outlines := none } := by
  cases d with
  | mk pages nextRef meta outlines names af form =>
    cases outlines <;> simp [removeOutlinesStep]

lemma removeAttachmentsStep_eq (d : Doc) :
    removeAttachmentsStep d = { d with names := clearEmbedded d.names, af := none } := by
  cases d with
  | mk pages nextRef meta outlines names af form =>
    cases names with
    | none => cases af <;> simp [removeAttachmentsStep, clearEmbedded]
    | some nd =>
      cases hnd : nd.embeddedFiles <;> cases af <;>
        simp [removeAttachmentsStep, clearEmbedded, hnd] <;>
        cases nd <;> simp_all

/-- Characterization of `compress` in one step: each option rewrites exactly its own field. -/
lemma compress_eq (o : CompressOptions) (d : Doc) :
    compress o d =
      { d with
        meta := if o.stripMetadata then strippedMeta else d.meta,
        pages :=
          if o.removeAnnotations then d.pages.map removeAnnotsPage else d.pages,
        form := if o.flatten then flattenForm d.form else d.form,
        outlines := if o.removeBookmarks then none else d.outlines,
        names := if o.removeAttachments then clearEmbedded d.names else d.names,
        af := if o.removeAttachments then none else d.af } := by
  obtain ⟨s, ra, fl, rb, rat⟩ := o
  cases s <;> cases ra <;> cases fl <;> cases rb <;> cases rat <;>
    simp [compress, saveStep_false, flattenCaught_eq, removeOutlinesStep_eq,
      removeAttachmentsStep_eq]

lemma removeAnnotsPage_idem (p : Page) :
    removeAnnotsPage (removeAnnotsPage p) = removeAnnotsPage p := by
  cases p with
  | mk ref content width height stamps annots =>
    cases annots <;> simp [removeAnnotsPage]

lemma flattenFields_snd_idem (l : List Bool) :
    flattenFields (flattenFields l).2 = flattenFields l := by
  induction l with
  | nil => rfl
  | cons b rest ih =>
    by_cases hb : b = true
    · subst hb; simp [flattenFields]
    · simp only [Bool.not_eq_true] at hb
      subst hb
      simpa [flattenFields] using ih

lemma flattenForm_idem (x : Option FormState) :
    flattenForm (flattenForm x) = flattenForm x := by
  cases x with
  | none => rfl
  | some f => simp [flattenForm, flattenFields_snd_idem]

lemma clearEmbedded_idem (x : Option NamesDict) :
    clearEmbedded (clearEmbedded x) = clearEmbedded x := by
  cases x <;> simp [clearEmbedded]

lemma map_removeAnnotsPage_of_none (l : List Page) (h : ∀ p ∈ l, p.annots = none) :
    l.map removeAnnotsPage = l := by
  induction l with
  | nil => rfl
  | cons p rest ih =>
    have hp : p.annots = none := h p (List.mem_cons_self _ _)
    simp only [List.map_cons, List.cons.injEq]
    exact ⟨by simp [removeAnnotsPage, hp],
      ih (fun q hq => h q (List.mem_cons_of_mem _ hq))⟩

/-- C5: `compress` is structurally idempotent — a second run with the same
options changes nothing: stripped metadata stays stripped, removed
annotations, bookmarks and embedded files stay absent.  Moreover, on a
document that has none of the targeted structures every option is a no-op,
and `compress`, being a total function, is never an error. -/
theorem compress_idempotent (o : CompressOptions) (d : Doc) :
    compress o (compress o d) = compress o d ∧
      (d.meta = strippedMeta → (∀ p ∈ d.pages, p.annots = none) → d.form = none →
        d.outlines = none → clearEmbedded d.names = d.names → d.af = none →
        compress o d = d) := by
  constructor
  · rw [compress_eq o d, compress_eq]
    obtain ⟨s, ra, fl, rb, rat⟩ := o
    cases s <;> cases ra <;> cases fl <;> cases rb <;> cases rat <;>
      simp [List.map_map, flattenForm_idem, clearEmbedded_idem,
        Function.comp_def, removeAnnotsPage_idem]
  · intro h1 h2 h3 h4 h5 h6
    rw [compress_eq]
    cases d with
    | mk pgs nr mt ol nm af fm =>
      simp only at h1 h3 h4 h6
      subst h1; subst h3; subst h4; subst h6
      simp only at h2 h5
      simp [map_removeAnnotsPage_of_none pgs h2, h5, flattenForm]

/-- Witness for C5 at a concrete document (the empty document lacks every
targeted structure). -/
theorem compress_idempotent_witness :
    compress ⟨true, true, true, true, true⟩
        (compress ⟨true, true, true, true, true⟩ emptyDoc) =
      compress ⟨true, true, true, true, true⟩ emptyDoc ∧
      compress ⟨true, true, true, true, true⟩ emptyDoc = emptyDoc :=
  ⟨(compress_idempotent ⟨true, true, true, true, true⟩ emptyDoc).1,
    (compress_idempotent ⟨true, true, true, true, true⟩ emptyDoc).2 rfl
      (fun p hp => by cases hp) rfl rfl rfl rfl⟩

/-- C9: with `stripMetadata` enabled, `compress` clears title, author,
subject, keywords, producer and creator and sets both timestamps to the fixed
epoch `new Date(0)` — the output information dictionary is the constant
`strippedMeta` (dates `0`) whatever the input document, so it cannot depend on
the time of processing. -/
theorem compress_stripMetadata_meta (o : CompressOptions) (d : Doc)
    (h : o.stripMetadata = true) :
    (compress o d).meta = strippedMeta ∧
      strippedMeta.creationDate = 0 ∧ strippedMeta.modificationDate = 0 := by
  rw [compress_eq]
  simp [h, strippedMeta]

/-- Witness for C9 at a concrete document. -/
theorem compress_stripMetadata_meta_witness :
    (compress ⟨true, false, false, false, false⟩
        { emptyDoc with meta := ⟨"t", "a", "s", ["k"], "p", "c", 5, 6⟩ }).meta =
      strippedMeta ∧
      strippedMeta.creationDate = 0 ∧ strippedMeta.modificationDate = 0 :=
  compress_stripMetadata_meta ⟨true, false, false, false, false⟩
    { emptyDoc with meta := ⟨"t", "a", "s", ["k"], "p", "c", 5, 6⟩ } rfl

/-- C8: a raise inside the flatten block (no form at all, or a corrupt field
definition) is swallowed by its `catch` and never aborts `compress`: the
later enabled blocks still run — bookmarks are removed, embedded files and
the `AF` array are removed — and `compress`, being a total function, still
returns its saved result. -/
theorem compress_flatten_failure_swallowed (o : CompressOptions) (d : Doc)
    (hf : o.flatten = true) (hr : flattenRaises d = true) :
    (o.removeBookmarks = true → (compress o d).outlines = none) ∧
      (o.removeAttachments = true →
        (∀ nd, (compress o d).names = some nd → nd.embeddedFiles = none) ∧
          (compress o d).af = none) := by
  rw [compress_eq]
  refine ⟨fun hb => by simp [hb], fun ha => ⟨fun nd hnd => ?_, by simp [ha]⟩⟩
  simp only [ha, if_true] at hnd
  cases hn : d.names with
  | none => rw [hn] at hnd; simp [clearEmbedded] at hnd
  | some x =>
    rw [hn] at hnd
    simp [clearEmbedded] at hnd
    rw [← hnd]

/-- Witness for C8: a document whose form has a corrupt field, with outlines,
embedded files and an `AF` entry present; all options on. -/
theorem compress_flatten_failure_swallowed_witness :
    ((⟨true, true, true, true, true⟩ : CompressOptions).removeBookmarks = true →
        (compress ⟨true, true, true, true, true⟩
            { emptyDoc with
              outlines := some 1, names := some ⟨some 2, 3⟩, af := some 4,
              form := some ⟨[true]⟩ }).outlines = none) ∧
      ((⟨true, true, true, true, true⟩ : CompressOptions).removeAttachments = true →
        (∀ nd,
            (compress ⟨true, true, true, true, true⟩
                { emptyDoc with
                  outlines := some 1, names := some ⟨some 2, 3⟩, af := some 4,
                  form := some ⟨[true]⟩ }).names = some nd →
              nd.embeddedFiles = none) ∧
          (compress ⟨true, true, true, true, true⟩
              { emptyDoc with
                outlines := some 1, names := some ⟨some 2, 3⟩, af := some 4,
                form := some ⟨[true]⟩ }).af = none) :=
  compress_flatten_failure_swallowed ⟨true, true, true, true, true⟩
    { emptyDoc with
      outlines := some 1, names := some ⟨some 2, 3⟩, af := some 4,
      form := some ⟨[true]⟩ } rfl rfl

/-! ## Merge: verification -/

lemma totalLen_nil : totalLen [] = 0 := rfl

lemma totalLen_cons (f : SrcFile) (fs : List SrcFile) :
    totalLen (f :: fs) = f.pages.length + totalLen fs := by
  simp [totalLen]

lemma copyBlock_length (options : MergeOptions) (f : SrcFile) (base : ℕ) :
    (copyBlock options f base).length = f.pages.length := by
  simp [copyBlock, copyPagesFrom]

lemma blocks_length (options : MergeOptions) (files : List SrcFile) :
    ∀ base, (blocks options files base).length = totalLen files := by
  induction files with
  | nil => intro base; rfl
  | cons f fs ih =>
    intro base
    simp [blocks, copyBlock_length, ih, totalLen_cons]

lemma appendFile_eq (options : MergeOptions) (f : SrcFile) (st : Doc × ℕ × List TocEntry) :
    appendFile options f st =
      ({ st.1 with
          pages := st.1.pages ++ copyBlock options f st.1.nextRef,
          nextRef := st.1.nextRef + f.pages.length },
        st.2.1 + f.pages.length,
        st.2.2 ++ [⟨f.name, if options.toc then st.2.1 + 1 else st.2.1⟩]) := by
  simp [appendFile, copyBlock, copyPagesFrom]

lemma appendSources_eq (options : MergeOptions) (files : List SrcFile) :
    ∀ d t es, appendSources options files (d, t, es) =
      ({ d with
          pages := d.pages ++ blocks options files d.nextRef,
          nextRef := d.nextRef + totalLen files },
        t + totalLen files, es ++ entriesFor options files t) := by
  induction files with
  | nil =>
    intro d t es
    cases d with
    | mk pgs nr mt ol nm af fm => simp [appendSources, blocks, entriesFor, totalLen]
  | cons f fs ih =>
    intro d t es
    show appendSources options fs (appendFile options f (d, t, es)) = _
    rw [appendFile_eq]
    simp only []
    rw [ih]
    cases d with
    | mk pgs nr mt ol nm af fm =>
      simp [blocks, entriesFor, totalLen_cons, List.append_assoc, Nat.add_assoc,
        List.singleton_append]

lemma addStamp_ref (p : Page) (s : Stamp) : (addStamp p s).ref = p.ref := rfl

lemma addStamp_content (p : Page) (s : Stamp) : (addStamp p s).content = p.content := rfl

lemma addStamp_annots (p : Page) (s : Stamp) : (addStamp p s).annots = p.annots := rfl

lemma self_mem_addStamp (p : Page) (s : Stamp) : s ∈ (addStamp p s).stamps := by
  simp [addStamp]

lemma mem_stamps_addStamp (p : Page) (s s' : Stamp) (h : s ∈ p.stamps) :
    s ∈ (addStamp p s').stamps := by
  simp [addStamp]
  exact Or.inl h

lemma stampCopiedPage_ref (o : MergeOptions) (n : String) (c : ℕ) (ip : ℕ × Page) :
    (stampCopiedPage o n c ip).ref = ip.2.ref := by
  unfold stampCopiedPage
  cases o.filename <;> cases o.origPages <;> simp [addStamp]

lemma stampCopiedPage_content (o : MergeOptions) (n : String) (c : ℕ) (ip : ℕ × Page) :
    (stampCopiedPage o n c ip).content = ip.2.content := by
  unfold stampCopiedPage
  cases o.filename <;> cases o.origPages <;> simp [addStamp]

lemma filename_stamp_mem (o : MergeOptions) (n : String) (c : ℕ) (ip : ℕ × Page)
    (h : o.filename = true) :
    mkFooterStamp ("Source: " ++ n) 50 20 ∈ (stampCopiedPage o n c ip).stamps := by
  unfold stampCopiedPage
  rw [h]
  simp only [if_true]
  split
  · exact mem_stamps_addStamp _ _ _ (self_mem_addStamp _ _)
  · exact self_mem_addStamp _ _

lemma finalStampStep_pages_get? (o : MergeOptions) (total : ℕ) (d : Doc) (i : ℕ) :
    (finalStampStep o total d).pages.get? i =
      (d.pages.get? i).map (fun p =>
        if o.finalPages then
          addStamp p
            (mkFooterStamp ("Page " ++ toString (i + 1) ++ " of " ++ toString total)
              (p.width - 100) 20)
        else p) := by
  cases hf : o.finalPages
  · simp only [finalStampStep, hf, Bool.false_eq_true, if_false]
    cases d.pages.get? i <;> simp
  · simp only [finalStampStep, hf, if_true]
    rw [List.get?_map, List.get?_enum]
    cases d.pages.get? i <;> simp

lemma finalStampStep_nextRef (o : MergeOptions) (total : ℕ) (d : Doc) :
    (finalStampStep o total d).nextRef = d.nextRef := by
  cases hf : o.finalPages <;> simp [finalStampStep, hf]

lemma finalStampStep_length (o : MergeOptions) (total : ℕ) (d : Doc) :
    (finalStampStep o total d).pages.length = d.pages.length := by
  cases hf : o.finalPages <;> simp [finalStampStep, hf]

lemma copyBlock_get? (o : MergeOptions) (f : SrcFile) (base j : ℕ) (p : Page)
    (hp : f.pages.get? j = some p) :
    (copyBlock o f base).get? j =
      some (stampCopiedPage o f.name f.pages.length (j, { p with ref := base + j })) := by
  unfold copyBlock copyPagesFrom
  rw [List.get?_map, List.get?_enum, List.get?_map, List.get?_enum, hp]
  rfl

lemma blocks_get? (o : MergeOptions) :
    ∀ (files : List SrcFile) (k : ℕ) (f : SrcFile) (j : ℕ) (p : Page) (base : ℕ),
      files.get? k = some f → f.pages.get? j = some p →
      (blocks o files base).get? (prefixLen files k + j) =
        some (stampCopiedPage o f.name f.pages.length
          (j, { p with ref := base + (prefixLen files k + j) })) := by
  intro files
  induction files with
  | nil => intro k f j p base hk; simp at hk
  | cons f0 fs ih =>
    intro k f j p base hk hp
    cases k with
    | zero =>
      rw [List.get?_cons_zero, Option.some.injEq] at hk
      subst hk
      have hj : j < f0.pages.length := (List.get?_eq_some.mp hp).1
      show (copyBlock o f0 base ++ blocks o fs (base + f0.pages.length)).get? _ = _
      have hlt : prefixLen (f0 :: fs) 0 + j < (copyBlock o f0 base).length := by
        rw [copyBlock_length]
        simpa [prefixLen] using hj
      rw [List.get?_append hlt]
      show (copyBlock o f0 base).get? (0 + j) = _
      rw [Nat.zero_add, copyBlock_get? o f0 base j p hp]
      simp [prefixLen]
    | succ k' =>
      rw [List.get?_cons_succ] at hk
      show (copyBlock o f0 base ++ blocks o fs (base + f0.pages.length)).get? _ = _
      have hpl : prefixLen (f0 :: fs) (k' + 1) = f0.pages.length + prefixLen fs k' := rfl
      have hge : (copyBlock o f0 base).length ≤ prefixLen (f0 :: fs) (k' + 1) + j := by
        rw [copyBlock_length, hpl]; omega
      rw [List.get?_append_right hge]
      have hsub : prefixLen (f0 :: fs) (k' + 1) + j - (copyBlock o f0 base).length =
          prefixLen fs k' + j := by
        rw [copyBlock_length, hpl]; omega
      rw [hsub, ih k' f j p (base + f0.pages.length) hk hp]
      have harith : base + f0.pages.length + (prefixLen fs k' + j) =
          base + (prefixLen (f0 :: fs) (k' + 1) + j) := by
        rw [hpl]; omega
      rw [harith]

lemma entriesFor_length (o : MergeOptions) :
    ∀ (files : List SrcFile) (t : ℕ), (entriesFor o files t).length = files.length := by
  intro files
  induction files with
  | nil => intro t; rfl
  | cons f fs ih => intro t; simp [entriesFor, ih]

lemma entriesFor_get? (o : MergeOptions) (htoc : o.toc = true) :
    ∀ (files : List SrcFile) (k : ℕ) (f : SrcFile) (t : ℕ),
      files.get? k = some f →
      (entriesFor o files t).get? k = some ⟨f.name, t + prefixLen files k + 1⟩ := by
  intro files
  induction files with
  | nil => intro k f t hk; simp at hk
  | cons f0 fs ih =>
    intro k f t hk
    cases k with
    | zero =>
      rw [List.get?_cons_zero] at hk
      obtain rfl : f0 = f := by injection hk
      simp [entriesFor, htoc, prefixLen]
    | succ k' =>
      rw [List.get?_cons_succ] at hk
      show (entriesFor o fs (t + f0.pages.length)).get? k' = _
      rw [ih k' f (t + f0.pages.length) hk]
      have : t + f0.pages.length + prefixLen fs k' = t + prefixLen (f0 :: fs) (k' + 1) := by
        show _ = t + (f0.pages.length + prefixLen fs k')
        omega
      rw [this]

lemma entriesFor_bounds (o : MergeOptions) (htoc : o.toc = true) :
    ∀ (files : List SrcFile) (t : ℕ), (∀ f ∈ files, f.pages ≠ []) →
      ∀ e ∈ entriesFor o files t, t + 1 ≤ e.pageIndex ∧ e.pageIndex ≤ t + totalLen files := by
  intro files
  induction files with
  | nil => intro t _ e he; simp [entriesFor] at he
  | cons f0 fs ih =>
    intro t hp e he
    have h0 : 1 ≤ f0.pages.length :=
      List.length_pos.2 (hp f0 (List.mem_cons_self _ _))
    rcases List.mem_cons.mp he with rfl | htail
    · refine ⟨by simp [htoc], ?_⟩
      simp only [htoc, if_true, totalLen_cons]
      omega
    · have := ih (t + f0.pages.length) (fun f hf => hp f (List.mem_cons_of_mem _ hf)) e htail
      rw [totalLen_cons]
      omega

lemma tocAnnots_length (tail : List Page) (height : ℚ) :
    ∀ (es : List TocEntry) (idx : ℕ), (tocAnnots tail height es idx).length = es.length := by
  intro es
  induction es with
  | nil => intro idx; rfl
  | cons e rest ih => intro idx; simp [tocAnnots, ih]

lemma tocAnnots_get? (tail : List Page) (height : ℚ) :
    ∀ (es : List TocEntry) (idx k : ℕ) (e : TocEntry), es.get? k = some e →
      (tocAnnots tail height es idx).get? k =
        some (Annot.link (tocLinkRect height (idx + k) e)
          (((tail.get? (e.pageIndex - 1)).getD defaultPage).ref)) := by
  intro es
  induction es with
  | nil => intro idx k e hk; simp at hk
  | cons e0 rest ih =>
    intro idx k e hk
    cases k with
    | zero =>
      rw [List.get?_cons_zero] at hk
      obtain rfl : e0 = e := by injection hk
      simp [tocAnnots]
    | succ k' =>
      rw [List.get?_cons_succ] at hk
      show (tocAnnots tail height rest (idx + 1)).get? k' = _
      rw [ih (idx + 1) k' e hk]
      have : idx + 1 + k' = idx + (k' + 1) := by omega
      rw [this]

lemma pushAnnot_ref (p : Page) (a : Annot) : (pushAnnot p a).ref = p.ref := rfl

lemma pushAnnot_content (p : Page) (a : Annot) : (pushAnnot p a).content = p.content := rfl

lemma pushAnnot_annots_some (p : Page) (a : Annot) (l : List Annot)
    (h : p.annots = some l) : (pushAnnot p a).annots = some (l ++ [a]) := by
  simp [pushAnnot, h]

lemma tocLoop_spec (tail : List Page) (height : ℚ) :
    ∀ (es : List TocEntry) (idx : ℕ) (tp : Page) (ref : ℕ) (l0 : List Annot),
      tp.annots = some l0 →
      (∀ e ∈ es, 1 ≤ e.pageIndex ∧ e.pageIndex - 1 < tail.length) →
      ∃ tp', tocLoop tail height es idx tp ref = some (tp', ref + es.length) ∧
        tp'.annots = some (l0 ++ tocAnnots tail height es idx) ∧
        tp'.ref = tp.ref ∧ tp'.content = tp.content := by
  intro es
  induction es with
  | nil =>
    intro idx tp ref l0 ha _
    exact ⟨tp, by simp [tocLoop], by simp [tocAnnots, ha], rfl, rfl⟩
  | cons e rest ih =>
    intro idx tp ref l0 ha hb
    obtain ⟨hpi1, hpi2⟩ := hb e (List.mem_cons_self _ _)
    obtain ⟨m, hm⟩ : ∃ m, e.pageIndex = m + 1 := ⟨e.pageIndex - 1, by omega⟩
    have hmlt : m < tail.length := by omega
    obtain ⟨pg, hpg⟩ : ∃ pg, tail.get? m = some pg := by
      cases hq : tail.get? m with
      | none => exact absurd (List.get?_eq_none.mp hq) (by omega)
      | some pg => exact ⟨pg, rfl⟩
    have hlook :
        ((addStamp tp (tocEntryStamp height idx e)) :: tail).get? e.pageIndex = some pg := by
      rw [hm, List.get?_cons_succ, hpg]
    have hann :
        (pushAnnot (addStamp tp (tocEntryStamp height idx e))
            (Annot.link (tocLinkRect height idx e) pg.ref)).annots =
          some (l0 ++ [Annot.link (tocLinkRect height idx e) pg.ref]) :=
      pushAnnot_annots_some _ _ l0 (by rw [addStamp_annots]; exact ha)
    obtain ⟨tp', heq, hann', href, hcont⟩ :=
      ih (idx + 1)
        (pushAnnot (addStamp tp (tocEntryStamp height idx e))
          (Annot.link (tocLinkRect height idx e) pg.ref))
        (ref + 1) (l0 ++ [Annot.link (tocLinkRect height idx e) pg.ref]) hann
        (fun e' he' => hb e' (List.mem_cons_of_mem _ he'))
    refine ⟨tp', ?_, ?_, ?_, ?_⟩
    · show tocLoop tail height (e :: rest) idx tp ref = _
      rw [tocLoop]
      simp only [hlook]
      show tocLoop tail height rest (idx + 1) _ (ref + 1) = _
      have harith : ref + 1 + rest.length = ref + (e :: rest).length := by
        simp [List.length_cons]; omega
      rw [← harith]
      convert heq using 3
    · rw [hann']
      show _ = some (l0 ++ tocAnnots tail height (e :: rest) idx)
      rw [tocAnnots]
      have hpg2 : tail[m]? = some pg := by rw [← List.get?_eq_getElem?]; exact hpg
      have hdest : ((tail.get? (e.pageIndex - 1)).getD defaultPage).ref = pg.ref := by
        rw [hm]
        simp [hpg2]
      rw [hdest, List.append_assoc, List.singleton_append]
    · rw [href]; rfl
    · rw [hcont]; rfl

lemma tocLoop_spec_none (tail : List Page) (height : ℚ) (es : List TocEntry) (idx : ℕ)
    (tp : Page) (ref : ℕ) (ha : tp.annots = none) (hne : es ≠ [])
    (hb : ∀ e ∈ es, 1 ≤ e.pageIndex ∧ e.pageIndex - 1 < tail.length) :
    ∃ tp', tocLoop tail height es idx tp ref = some (tp', ref + es.length) ∧
      tp'.annots = some (tocAnnots tail height es idx) ∧
      tp'.ref = tp.ref ∧ tp'.content = tp.content := by
  cases es with
  | nil => exact absurd rfl hne
  | cons e rest =>
    obtain ⟨hpi1, hpi2⟩ := hb e (List.mem_cons_self _ _)
    obtain ⟨m, hm⟩ : ∃ m, e.pageIndex = m + 1 := ⟨e.pageIndex - 1, by omega⟩
    have hmlt : m < tail.length := by omega
    obtain ⟨pg, hpg⟩ : ∃ pg, tail.get? m = some pg := by
      cases hq : tail.get? m with
      | none => exact absurd (List.get?_eq_none.mp hq) (by omega)
      | some pg => exact ⟨pg, rfl⟩
    have hlook :
        ((addStamp tp (tocEntryStamp height idx e)) :: tail).get? e.pageIndex = some pg := by
      rw [hm, List.get?_cons_succ, hpg]
    have hann :
        (pushAnnot (addStamp tp (tocEntryStamp height idx e))
            (Annot.link (tocLinkRect height idx e) pg.ref)).annots =
          some [Annot.link (tocLinkRect height idx e) pg.ref] := by
      simp [pushAnnot, addStamp, ha]
    obtain ⟨tp', heq, hann', href, hcont⟩ :=
      tocLoop_spec tail height rest (idx + 1)
        (pushAnnot (addStamp tp (tocEntryStamp height idx e))
          (Annot.link (tocLinkRect height idx e) pg.ref))
        (ref + 1) [Annot.link (tocLinkRect height idx e) pg.ref] hann
        (fun e' he' => hb e' (List.mem_cons_of_mem _ he'))
    refine ⟨tp', ?_, ?_, ?_, ?_⟩
    · show tocLoop tail height (e :: rest) idx tp ref = _
      rw [tocLoop]
      simp only [hlook]
      have harith : ref + 1 + rest.length = ref + (e :: rest).length := by
        simp [List.length_cons]; omega
      rw [← harith]
      convert heq using 3
    · rw [hann']
      show _ = some (tocAnnots tail height (e :: rest) idx)
      rw [tocAnnots]
      have hpg2 : tail[m]? = some pg := by rw [← List.get?_eq_getElem?]; exact hpg
      have hdest : ((tail.get? (e.pageIndex - 1)).getD defaultPage).ref = pg.ref := by
        rw [hm]
        simp [hpg2]
      rw [hdest, List.singleton_append]
    · rw [href]; rfl
    · rw [hcont]; rfl

/-- C2: after `merge(sources, {toc:true})` on a non-empty list of sources
(each with at least one page, so that "the first page copied from that
source" exists), the number of link annotations on the inserted first (TOC)
page equals the number of sources, and the `k`-th link's destination `ref` is
the page at final index `1 + prefixLen files k` — the first page copied from
source `k`, shifted by one for the TOC page inserted at the front — whose
content is that source's first page. -/
theorem merge_toc_invariant (files : List SrcFile) (options : MergeOptions)
    (htoc : options.toc = true) (hne : files ≠ [])
    (hp : ∀ f ∈ files, f.pages ≠ []) :
    ∃ d tocPg rest, merge files options = some d ∧ d.pages = tocPg :: rest ∧
      ∃ l, tocPg.annots = some l ∧ l.length = files.length ∧
        ∀ k f p0, files.get? k = some f → f.pages.get? 0 = some p0 →
          ∃ rect dest, l.get? k = some (Annot.link rect dest) ∧
            ∃ q, d.pages.get? (1 + prefixLen files k) = some q ∧
              q.ref = dest ∧ q.content = p0.content := by
  obtain ⟨f0, fs, rfl⟩ : ∃ f0 fs, files = f0 :: fs := by
    cases files with
    | nil => exact absurd rfl hne
    | cons a b => exact ⟨a, b, rfl⟩
  have hApp :
      appendSources options (f0 :: fs) (emptyDoc, 0, []) =
        ({ emptyDoc with
            pages := blocks options (f0 :: fs) 0,
            nextRef := totalLen (f0 :: fs) },
          totalLen (f0 :: fs), entriesFor options (f0 :: fs) 0) := by
    rw [appendSources_eq]
    simp [emptyDoc]
  set B := blocks options (f0 :: fs) 0 with hB
  set T := totalLen (f0 :: fs) with hT
  set ES := entriesFor options (f0 :: fs) 0 with hES
  set D1 := finalStampStep options T { emptyDoc with pages := B, nextRef := T } with hD1
  have hmerge :
      merge (f0 :: fs) options = (tocStep options ES D1).map (fun d' => saveStep d' true) := by
    unfold merge
    rw [hApp]
  have hD1pages : ∀ i, D1.pages.get? i =
      (B.get? i).map (fun p =>
        if options.finalPages then
          addStamp p
            (mkFooterStamp ("Page " ++ toString (i + 1) ++ " of " ++ toString T)
              (p.width - 100) 20)
        else p) := by
    intro i
    rw [hD1, finalStampStep_pages_get?]
  have hD1len : D1.pages.length = T := by
    rw [hD1, finalStampStep_length]
    show B.length = T
    rw [hB, hT]
    exact blocks_length options (f0 :: fs) 0
  have hESne : ES ≠ [] := by
    rw [hES]
    show (⟨f0.name, _⟩ : TocEntry) :: _ ≠ []
    exact List.cons_ne_nil _ _
  have hb : ∀ e ∈ ES, 1 ≤ e.pageIndex ∧ e.pageIndex - 1 < D1.pages.length := by
    intro e he
    have hbd := entriesFor_bounds options htoc (f0 :: fs) 0 hp e (by rw [← hES]; exact he)
    rw [hD1len, hT]
    omega
  obtain ⟨tp', hloop, hannots, href, hcont⟩ :=
    tocLoop_spec_none D1.pages (blankPage D1.nextRef).height ES 0
      (addStamp (blankPage D1.nextRef) (tocTitleStamp (blankPage D1.nextRef).height))
      (D1.nextRef + 1) rfl hESne hb
  have htocstep :
      tocStep options ES D1 =
        some { D1 with pages := tp' :: D1.pages, nextRef := D1.nextRef + 1 + ES.length } := by
    unfold tocStep
    rw [htoc]
    simp only [if_true]
    rw [hloop]
  refine ⟨{ D1 with pages := tp' :: D1.pages, nextRef := D1.nextRef + 1 + ES.length },
    tp', D1.pages, ?_, rfl, ?_⟩
  · rw [hmerge, htocstep]
    simp only [Option.map_some']
    rw [saveStep_of_ne_nil _ _ (by exact List.cons_ne_nil _ _)]
  · refine ⟨tocAnnots D1.pages (blankPage D1.nextRef).height ES 0, hannots, ?_, ?_⟩
    · rw [tocAnnots_length, hES, entriesFor_length]
    · intro k f p0 hk hp0
      have hesk : ES.get? k = some ⟨f.name, 0 + prefixLen (f0 :: fs) k + 1⟩ := by
        rw [hES]
        exact entriesFor_get? options htoc (f0 :: fs) k f 0 hk
      have hannk := tocAnnots_get? D1.pages (blankPage D1.nextRef).height ES 0 k _ hesk
      have hpi : (⟨f.name, 0 + prefixLen (f0 :: fs) k + 1⟩ : TocEntry).pageIndex - 1 =
          prefixLen (f0 :: fs) k := by
        show 0 + prefixLen (f0 :: fs) k + 1 - 1 = _
        omega
      rw [hpi] at hannk
      have hBget := blocks_get? options (f0 :: fs) k f 0 p0 0 hk hp0
      rw [Nat.add_zero] at hBget
      have hq := hD1pages (prefixLen (f0 :: fs) k)
      rw [hBget] at hq
      simp only [Option.map_some'] at hq
      have hgetD : D1.pages.get? (prefixLen (f0 :: fs) k) =
          some ((D1.pages.get? (prefixLen (f0 :: fs) k)).getD defaultPage) := by
        rw [hq]
        rfl
      refine ⟨_, _, hannk,
        (D1.pages.get? (prefixLen (f0 :: fs) k)).getD defaultPage, ?_, rfl, ?_⟩
      · show (tp' :: D1.pages).get? (1 + prefixLen (f0 :: fs) k) = _
        rw [Nat.add_comm 1, List.get?_cons_succ]
        exact hgetD
      · rw [hq, Option.getD_some]
        show _ = p0.content
        split
        · rw [addStamp_content, stampCopiedPage_content]
        · rw [stampCopiedPage_content]

/-- Witness for C2 at the two concrete sources. -/
theorem merge_toc_invariant_witness :
    ∃ d tocPg rest,
      merge [fileA, fileB] ⟨true, false, false, false⟩ = some d ∧ d.pages = tocPg :: rest ∧
        ∃ l, tocPg.annots = some l ∧ l.length = ([fileA, fileB] : List SrcFile).length ∧
          ∀ k f p0, ([fileA, fileB] : List SrcFile).get? k = some f →
            f.pages.get? 0 = some p0 →
            ∃ rect dest, l.get? k = some (Annot.link rect dest) ∧
              ∃ q, d.pages.get? (1 + prefixLen [fileA, fileB] k) = some q ∧
                q.ref = dest ∧ q.content = p0.content :=
  merge_toc_invariant [fileA, fileB] ⟨true, false, false, false⟩ rfl
    (List.cons_ne_nil _ _)
    (by
      intro f hf
      rcases List.mem_cons.mp hf with rfl | hf2
      · exact List.cons_ne_nil _ _
      · rcases List.mem_cons.mp hf2 with rfl | hf3
        · exact List.cons_ne_nil _ _
        · cases hf3)

/-- C1 counterexample: on A (3 pages) and B (2 pages) with
`{toc:true, finalPages:true}`, the six pages' stamp texts.  The final
page-number pass ran before the TOC page was inserted, so the stamps on the
content pages read "Page 1 of 5" … "Page 5 of 5" — not "Page 2 of 6" …
"Page 6 of 6" as the claim states — and the TOC page carries no page-number
stamp at all. -/
theorem merge_final_stamp_counterexample :
    (merge [fileA, fileB] ⟨true, false, false, true⟩).map
        (fun d => d.pages.map (fun p => p.stamps.map (fun s => s.text))) =
      some [["Table of Contents", "A.pdf (Page 2)", "B.pdf (Page 5)"],
        ["Page 1 of 5"], ["Page 2 of 5"], ["Page 3 of 5"], ["Page 4 of 5"],
        ["Page 5 of 5"]] := by
  with_unfolding_all rfl

/-- C1 amended: `merge([A,B], {toc:true, finalPages:true})` produces a 6-page
document whose page 1 is the TOC with 2 links targeting the first copied
pages of A and B (refs 0 and 3, at final indices 1 and 4); the final
page-number pass runs after all sources are appended but before the TOC page
is inserted, so it numbers only the five content pages, "Page 1 of 5" …
"Page 5 of 5", and the TOC page is unstamped by it. -/
theorem merge_final_stamp_amended :
    (merge [fileA, fileB] ⟨true, false, false, true⟩).map
        (fun d =>
          (d.pages.length,
            d.pages.map (fun p => p.content),
            d.pages.map (fun p => p.stamps.map (fun s => s.text)),
            d.pages.map (fun p => p.ref),
            (d.pages.headD defaultPage).annots.map (fun l => l.map linkDest))) =
      some (6,
        [PageContent.blank, .fromSrc 0, .fromSrc 1, .fromSrc 2, .fromSrc 10, .fromSrc 11],
        [["Table of Contents", "A.pdf (Page 2)", "B.pdf (Page 5)"],
          ["Page 1 of 5"], ["Page 2 of 5"], ["Page 3 of 5"], ["Page 4 of 5"],
          ["Page 5 of 5"]],
        [5, 0, 1, 2, 3, 4],
        some [some 0, some 3]) := by
  with_unfolding_all rfl

/-- C6 counterexample: `merge([], {})` yields a one-page document, not a
zero-page one — `save()`'s default `addDefaultPage: true` silently adds a
blank page. -/
theorem merge_empty_counterexample :
    (merge ([] : List SrcFile) {}).map (fun d => d.pages.length) = some 1 ∧
      (merge ([] : List SrcFile) {}).map (fun d => d.pages.length) ≠ some 0 := by
  have h : (merge ([] : List SrcFile) {}).map (fun d => d.pages.length) = some 1 := by
    with_unfolding_all rfl
  refine ⟨h, ?_⟩
  rw [h]
  simp

/-- C6 amended: `merge` on a zero-length source list returns a structurally
valid document with exactly one silently-added blank page (no stamps, no
annotations): `merge` calls `save()` with pdf-lib's defaults, and the default
`addDefaultPage: true` adds a blank page to a zero-page document — unlike
`compress`, which passes `addDefaultPage: false`. -/
theorem merge_empty_amended :
    (merge ([] : List SrcFile) {}).map
        (fun d => d.pages.map (fun p => (p.content, p.stamps, p.annots))) =
      some [(PageContent.blank, [], none)] := by
  with_unfolding_all rfl

/-- C7 counterexample: for a source whose display name ("renamed.pdf")
differs from the underlying file's name ("a.pdf"), the filename stamp drawn
on the copied page is "Source: a.pdf" — the file's name, not the display
name. -/
theorem merge_filename_counterexample :
    fileRenamed.displayName = "renamed.pdf" ∧ fileRenamed.name = "a.pdf" ∧
      fileRenamed.displayName ≠ fileRenamed.name ∧
      (merge [fileRenamed] ⟨false, true, false, false⟩).map
          (fun d => d.pages.map (fun p => p.stamps.map (fun s => (s.text, s.x, s.y)))) =
        some [[("Source: a.pdf", 50, 20)]] :=
  ⟨rfl, rfl, by decide, by with_unfolding_all rfl⟩

/-- C7 amended: with the filename stamp option enabled, `merge` draws
`"Source: " ++ file.name` — the underlying file's name, not the
`displayName`, which the rename UI may have set differently — at the fixed
left-bottom footer position (x=50, y=20) on every page copied from that
source. -/
theorem merge_filename_stamp (files : List SrcFile) (options : MergeOptions) (d : Doc)
    (hf : options.filename = true) (hm : merge files options = some d)
    (k j : ℕ) (f : SrcFile) (p : Page)
    (hk : files.get? k = some f) (hj : f.pages.get? j = some p) :
    ∃ q, d.pages.get? ((if options.toc then 1 else 0) + (prefixLen files k + j)) = some q ∧
      mkFooterStamp ("Source: " ++ f.name) 50 20 ∈ q.stamps := by
  have hApp :
      appendSources options files (emptyDoc, 0, []) =
        ({ emptyDoc with
            pages := blocks options files 0,
            nextRef := totalLen files },
          totalLen files, entriesFor options files 0) := by
    rw [appendSources_eq]
    simp [emptyDoc]
  set B := blocks options files 0 with hB
  set T := totalLen files with hT
  set ES := entriesFor options files 0 with hES
  set D1 := finalStampStep options T { emptyDoc with pages := B, nextRef := T } with hD1
  have hmerge :
      merge files options = (tocStep options ES D1).map (fun d' => saveStep d' true) := by
    unfold merge
    rw [hApp]
  obtain ⟨d', hts, hsave⟩ :
      ∃ d', tocStep options ES D1 = some d' ∧ saveStep d' true = d := by
    cases hts : tocStep options ES D1 with
    | none => rw [hmerge, hts] at hm; simp at hm
    | some x =>
      rw [hmerge, hts] at hm
      simp only [Option.map_some', Option.some.injEq] at hm
      exact ⟨x, rfl, hm⟩
  have hBget := blocks_get? options files k f j p 0 hk hj
  have hq : D1.pages.get? (prefixLen files k + j) =
      some (if options.finalPages = true then
          addStamp (stampCopiedPage options f.name f.pages.length
              (j, { p with ref := 0 + (prefixLen files k + j) }))
            (mkFooterStamp
              ("Page " ++ toString (prefixLen files k + j + 1) ++ " of " ++ toString T)
              ((stampCopiedPage options f.name f.pages.length
                  (j, { p with ref := 0 + (prefixLen files k + j) })).width - 100) 20)
        else
          stampCopiedPage options f.name f.pages.length
            (j, { p with ref := 0 + (prefixLen files k + j) })) := by
    rw [hD1, finalStampStep_pages_get?]
    rw [show ({ emptyDoc with pages := B, nextRef := T } : Doc).pages = B from rfl]
    rw [hB, hBget]
    rfl
  have hgetD : D1.pages.get? (prefixLen files k + j) =
      some ((D1.pages.get? (prefixLen files k + j)).getD defaultPage) := by
    rw [hq]
    rfl
  cases htoc : options.toc with
  | true =>
    obtain ⟨tp, n, hd'⟩ : ∃ tp n, d' = { D1 with pages := tp :: D1.pages, nextRef := n } := by
      unfold tocStep at hts
      rw [htoc] at hts
      simp only [if_true] at hts
      cases hl : tocLoop D1.pages (blankPage D1.nextRef).height ES 0
          (addStamp (blankPage D1.nextRef) (tocTitleStamp (blankPage D1.nextRef).height))
          (D1.nextRef + 1) with
      | none => rw [hl] at hts; simp at hts
      | some tpn =>
        rw [hl] at hts
        simp only [Option.some.injEq] at hts
        exact ⟨tpn.1, tpn.2, hts.symm⟩
    have hdd : d = { D1 with pages := tp :: D1.pages, nextRef := n } := by
      rw [← hsave, hd']
      exact saveStep_of_ne_nil _ _ (List.cons_ne_nil _ _)
    rw [hdd]
    show ∃ q, (tp :: D1.pages).get? (1 + (prefixLen files k + j)) = some q ∧
        mkFooterStamp ("Source: " ++ f.name) 50 20 ∈ q.stamps
    rw [Nat.add_comm 1, List.get?_cons_succ]
    refine ⟨(D1.pages.get? (prefixLen files k + j)).getD defaultPage, hgetD, ?_⟩
    rw [hq, Option.getD_some]
    split
    · exact mem_stamps_addStamp _ _ _
        (filename_stamp_mem options f.name f.pages.length _ hf)
    · exact filename_stamp_mem options f.name f.pages.length _ hf
  | false =>
    have hd' : d' = D1 := by
      unfold tocStep at hts
      rw [htoc] at hts
      simp only [Bool.false_eq_true, if_false, Option.some.injEq] at hts
      exact hts.symm
    have hne2 : D1.pages ≠ [] := by
      intro hnil
      rw [hnil] at hq
      simp at hq
    have hdd : d = D1 := by
      rw [← hsave, hd']
      exact saveStep_of_ne_nil _ _ hne2
    rw [hdd]
    show ∃ q, D1.pages.get? (0 + (prefixLen files k + j)) = some q ∧
        mkFooterStamp ("Source: " ++ f.name) 50 20 ∈ q.stamps
    rw [Nat.zero_add]
    refine ⟨(D1.pages.get? (prefixLen files k + j)).getD defaultPage, hgetD, ?_⟩
    rw [hq, Option.getD_some]
    split
    · exact mem_stamps_addStamp _ _ _
        (filename_stamp_mem options f.name f.pages.length _ hf)
    · exact filename_stamp_mem options f.name f.pages.length _ hf

/-- Witness for C7's amended theorem at the renamed concrete source. -/
theorem merge_filename_stamp_witness :
    ∃ q, ((merge [fileRenamed] ⟨false, true, false, false⟩).getD emptyDoc).pages.get?
          ((if (⟨false, true, false, false⟩ : MergeOptions).toc then 1 else 0) +
            (prefixLen [fileRenamed] 0 + 0)) = some q ∧
        mkFooterStamp ("Source: " ++ fileRenamed.name) 50 20 ∈ q.stamps :=
  merge_filename_stamp [fileRenamed] ⟨false, true, false, false⟩ _ rfl
    (by with_unfolding_all rfl) 0 0 fileRenamed (pageOf 0 7) rfl rfl

/-! ## Split: verification -/

lemma copyPagesQ_single (src : Doc) (i : ℕ) (p : Page) (hp : src.pages.get? i = some p) :
    copyPagesQ 0 src [(i : ℚ)] = some [{ p with ref := 0 }] := by
  have hlen : i < src.pages.length := (List.get?_eq_some.mp hp).1
  have hcond : ((i : ℚ)).den = 1 ∧ 0 ≤ ((i : ℚ)).num ∧
      ((i : ℚ)).num.toNat < src.pages.length := by
    refine ⟨Rat.den_natCast i, ?_, ?_⟩
    · rw [Rat.num_natCast]; exact Int.natCast_nonneg i
    · rw [Rat.num_natCast, Int.toNat_natCast]; exact hlen
  have hidx : ((i : ℚ)).num.toNat = i := by rw [Rat.num_natCast, Int.toNat_natCast]
  have hlook : jsLookup src.pages (i : ℚ) = some p := by
    unfold jsLookup
    rw [dif_pos hcond]
    calc some (src.pages.get ⟨((i : ℚ)).num.toNat, hcond.2.2⟩)
        = src.pages.get? ((i : ℚ)).num.toNat := (List.get?_eq_get hcond.2.2).symm
      _ = src.pages.get? i := by rw [hidx]
      _ = some p := hp
  have hmapM : List.mapM (jsLookup src.pages) [(i : ℚ)] = some [p] := by
    rw [List.mapM_cons, hlook, List.mapM_nil]
    rfl
  unfold copyPagesQ
  rw [hmapM]
  rfl

lemma splitAllPages_spec (src : Doc) :
    ∀ l : List ℕ, (∀ i ∈ l, i < src.pages.length) →
      ∃ ds, splitAllPages src l = some ds ∧ ds.length = l.length ∧
        ∀ k i, l.get? k = some i →
          ∃ d0, ds.get? k = some d0 ∧
            ∃ p, src.pages.get? i = some p ∧ d0.pages = [{ p with ref := 0 }] := by
  intro l
  induction l with
  | nil =>
    intro _
    exact ⟨[], rfl, rfl, by intro k i hk; simp at hk⟩
  | cons i rest ih =>
    intro h
    have hi : i < src.pages.length := h i (List.mem_cons_self _ _)
    obtain ⟨p, hp⟩ : ∃ p, src.pages.get? i = some p := by
      cases hq : src.pages.get? i with
      | none => exact absurd (List.get?_eq_none.mp hq) (by omega)
      | some p => exact ⟨p, rfl⟩
    have hcp := copyPagesQ_single src i p hp
    obtain ⟨ds, hds, hlen, hget⟩ := ih (fun x hx => h x (List.mem_cons_of_mem _ hx))
    refine ⟨saveStep { emptyDoc with pages := [{ p with ref := 0 }], nextRef := 1 } true :: ds,
      ?_, ?_, ?_⟩
    · show splitAllPages src (i :: rest) = _
      rw [splitAllPages, hcp, hds]
      rfl
    · simp [hlen]
    · intro k i' hk
      cases k with
      | zero =>
        rw [List.get?_cons_zero, Option.some.injEq] at hk
        subst hk
        exact ⟨_, rfl, p, hp, rfl⟩
      | succ k' =>
        rw [List.get?_cons_succ] at hk
        exact hget k' i' hk

/-- C4: `split(source, r)` with an empty or all-whitespace range expression
returns exactly one output per source page, in source order, each output
being a saved fresh document whose page list is exactly the copy of the
corresponding source page (same content, size, stamps and annotations; fresh
ref 0 in the new document). -/
theorem split_emptyRange (src : Doc) (range : String) (h : jsTrim range = "") :
    ∃ ds, split src range = some ds ∧ ds.length = src.pages.length ∧
      ∀ i p, src.pages.get? i = some p →
        ∃ d0, ds.get? i = some d0 ∧ d0.pages = [{ p with ref := 0 }] := by
  obtain ⟨ds, hds, hlen, hget⟩ :=
    splitAllPages_spec src (List.range src.pages.length)
      (by intro i hi; exact List.mem_range.mp hi)
  refine ⟨ds, ?_, by simp [hlen], ?_⟩
  · unfold split
    rw [if_pos h]
    exact hds
  · intro i p hp
    have hi : i < src.pages.length := (List.get?_eq_some.mp hp).1
    have hr : (List.range src.pages.length).get? i = some i := by
      rw [List.get?_eq_getElem?]
      exact List.getElem?_range hi
    obtain ⟨d0, hd0, p', hp', hpages⟩ := hget i i hr
    rw [hp] at hp'
    rw [Option.some.injEq] at hp'
    subst hp'
    exact ⟨d0, hd0, hpages⟩

/-- Witness for C4 at the concrete 2-page source. -/
theorem split_emptyRange_witness :
    ∃ ds, split srcDoc2 "" = some ds ∧ ds.length = srcDoc2.pages.length ∧
      ∀ i p, srcDoc2.pages.get? i = some p →
        ∃ d0, ds.get? i = some d0 ∧ d0.pages = [{ p with ref := 0 }] :=
  split_emptyRange srcDoc2 "" (by with_unfolding_all rfl)

end PDFTools
